import Mathlib

/-!
Shallow embedding of `src/trie/calculate_root.rs`: the calculation of the
root of a radix-16 Merkle-Patricia trie over an abstract key/value storage.

Bytes are modelled as `Nat` (values below 256 in every real input) and byte
strings as `List Nat`.  Nibbles (4-bit values) are likewise `Nat`s below 16;
every nibble produced by the code itself is below 16 by construction.
The recursion of the Rust code is not structurally terminating for adapters
that violate the storage contract, so the Lean functions carry an explicit
`fuel` argument; with enough fuel they compute exactly what the Rust code
computes.
-/

/-- Mirror of the Rust struct `TrieNodeKey`: a key inside the trie, as a
sequence of nibbles.  The Rust `Nibble(u8)` wrapper is modelled as a plain
`Nat`. -/
structure TrieNodeKey where
  nibbles : List Nat
deriving DecidableEq, Repr

/-- Mirror of `TrieNodeKey::from_bytes`: split every byte into its high and
low nibble. -/
def TrieNodeKey.from_bytes (bytes : List Nat) : TrieNodeKey :=
  ⟨bytes.flatMap (fun b => [b / 16 % 16, b % 16])⟩

/-- Packing loop of `TrieNodeKey::to_bytes_truncate`: pair nibbles from the
left, high nibble first; a trailing unpaired nibble is dropped. -/
def nibblePairsToBytes : List Nat → List Nat
  | a :: b :: rest => (a * 16 + b) :: nibblePairsToBytes rest
  | _ => []

/-- Mirror of `TrieNodeKey::to_bytes_truncate`. -/
def TrieNodeKey.to_bytes_truncate (k : TrieNodeKey) : List Nat :=
  nibblePairsToBytes k.nibbles

/-- Mirror of `TrieNodeKey::is_ancestor_or_equal`.  The Rust byte access
`key[this.len()]` is guarded by `key != this` together with the
`starts_with` test, so the `getD` default is never exposed. -/
def TrieNodeKey.is_ancestor_or_equal (k : TrieNodeKey) (key : List Nat) : Bool :=
  let this := k.to_bytes_truncate
  if k.nibbles.length % 2 == 0 then
    -- Truncation is actually not truncating.
    this.isPrefixOf key
  else
    -- A nibble has been removed.
    let last_nibble := (k.nibbles.getLast?).getD 0
    this.isPrefixOf key && key != this && (key.getD this.length 0) / 16 == last_nibble

/-- Positional cut used by `commonPrefStep`: keep elements of the first list
until the first index where it disagrees with the second list.  The first
list is never longer than the second at the call site, mirroring the panic
freedom of the Rust indexing. -/
def diffCut : List Nat → List Nat → List Nat
  | a :: as, b :: bs => if a = b then a :: diffCut as bs else []
  | _, _ => []

/-- One step of the `common_prefix` loop of the source: truncate the running
prefix to the length of the new element, then cut it at the first position
where the two disagree. -/
def commonPrefStep (longest : TrieNodeKey) (elem0 : List Nat) : TrieNodeKey :=
  let elem := TrieNodeKey.from_bytes elem0
  let lp : List Nat :=
    if elem.nibbles.length < longest.nibbles.length then
      longest.nibbles.take elem.nibbles.length
    else longest.nibbles
  ⟨diffCut lp elem.nibbles⟩

/-- Driving loop of the source `common_prefix`, including its early exit
once the running prefix is empty (the exit does not change the result,
since an empty prefix is a fixed point of `commonPrefStep`). -/
def commonPrefGo (lp : TrieNodeKey) : List (List Nat) → TrieNodeKey
  | [] => lp
  | e :: rest =>
    let lp2 := commonPrefStep lp e
    if lp2.nibbles.isEmpty then lp2 else commonPrefGo lp2 rest

/-- Mirror of the source function `common_prefix`: the longest nibble-wise
common prefix of a list of byte strings, `none` for an empty list. -/
def commonPref : List (List Nat) → Option TrieNodeKey
  | [] => none
  | first :: rest => some (commonPrefGo (TrieNodeKey.from_bytes first) rest)

/-- Mirror of the Rust `Config`: the two storage callbacks.  The field
`pref_keys` models the `prefix_keys` callback (all stored keys whose byte
form starts with the given prefix). -/
structure Config where
  get_value : List Nat → Option (List Nat)
  pref_keys : List Nat → List (List Nat)

/-- Mirror of `CalculationCache` (its `node_values` map), as an association
list from trie node keys to encoded node values. -/
abbrev CalculationCache := List (TrieNodeKey × List Nat)

/-- Mirror of `CalculationCache::empty`. -/
def CalculationCache.empty : CalculationCache := []

/-- Mirror of `CalculationCache::invalidate_prefix`: the source clears the
whole map. -/
def CalculationCache.invalidate_pref (_c : CalculationCache) (_p : List Nat) :
    CalculationCache :=
  []

/-- Mirror of `CalculationCache::invalidate_node`, which delegates to
`invalidate_prefix`. -/
def CalculationCache.invalidate_node (c : CalculationCache) (key : List Nat) :
    CalculationCache :=
  c.invalidate_pref key

/-- Lookup in the cache map (mirror of `BTreeMap::get`). -/
def cacheFind (c : CalculationCache) (k : TrieNodeKey) : Option (List Nat) :=
  match c with
  | [] => none
  | (k2, v) :: rest => if k2 = k then some v else cacheFind rest k

/-- Insertion in the cache map (mirror of `BTreeMap::insert`, replacing any
previous entry for the key). -/
def cacheInsert (c : CalculationCache) (k : TrieNodeKey) (v : List Nat) :
    CalculationCache :=
  match c with
  | [] => [(k, v)]
  | (k2, v2) :: rest =>
    if k2 = k then (k, v) :: rest else (k2, v2) :: cacheInsert rest k v

/-- Cache lookup through the `Option` of `Config::cache`. -/
def cacheLookupOpt (c : Option CalculationCache) (k : TrieNodeKey) :
    Option (List Nat) :=
  match c with
  | none => none
  | some c => cacheFind c k

/-- Cache insertion through the `Option` of `Config::cache`. -/
def cacheInsertOpt (c : Option CalculationCache) (k : TrieNodeKey)
    (v : List Nat) : Option CalculationCache :=
  match c with
  | none => none
  | some c => some (cacheInsert c k v)

/-- Number of base-256 digits of a natural number (0 for 0). -/
def byteLen (n : Nat) : Nat :=
  if h : n = 0 then 0 else byteLen (n / 256) + 1
  decreasing_by exact Nat.div_lt_self (Nat.pos_of_ne_zero h) (by omega)

/-- Little-endian base-256 digits, fixed width. -/
def natLEBytes : Nat → Nat → List Nat
  | _, 0 => []
  | n, k + 1 => n % 256 :: natLEBytes (n / 256) k

/-- Modelled from the external `parity_scale_codec` crate consumed by the
source: the SCALE compact encoding of an unsigned integer (here, a length).
The low two bits of the first byte select the width, as described by the
length-prefix codec of the specification. -/
def compactLen (n : Nat) : List Nat :=
  if n < 64 then [n * 4]
  else if n < 2 ^ 14 then [(n * 4 + 1) % 256, (n * 4 + 1) / 256]
  else if n < 2 ^ 30 then
    [(n * 4 + 2) % 256, (n * 4 + 2) / 256 % 256,
     (n * 4 + 2) / 256 ^ 2 % 256, (n * 4 + 2) / 256 ^ 3]
  else ((byteLen n - 4) * 4 + 3) :: natLEBytes n (byteLen n)

/-- Modelled from the external `parity_scale_codec` crate: `Vec<u8>::encode`
frames the bytes with the compact encoding of their count. -/
def scaleEncodeBytes (v : List Nat) : List Nat :=
  compactLen v.length ++ v

/-!
BLAKE2b with a 32-byte digest, modelled from the external `blake2_rfc`
crate consumed by the source (`blake2b(32, &[], data)`), following RFC 7693:
64-bit words, 12 rounds, no key, no salt, no personalization.
-/

/-- Addition modulo `2 ^ 64`. -/
def wadd (a b : Nat) : Nat := (a + b) % 2 ^ 64

/-- Right rotation of a 64-bit word. -/
def rotr64 (x n : Nat) : Nat := ((x >>> n) ||| (x <<< (64 - n))) % 2 ^ 64

/-- Initialization vector of BLAKE2b (RFC 7693). -/
def blakeIV : List Nat :=
  [0x6a09e667f3bcc908, 0xbb67ae8584caa73b, 0x3c6ef372fe94f82b,
   0xa54ff53a5f1d36f1, 0x510e527fade682d1, 0x9b05688c2b3e6c1f,
   0x1f83d9abfb41bd6b, 0x5be0cd19137e2179]

/-- Message schedule of BLAKE2b (RFC 7693). -/
def blakeSigma : List (List Nat) :=
  [[0, 1, 2, 3, 4, 5, 6, 7, 8, 9, 10, 11, 12, 13, 14, 15],
   [14, 10, 4, 8, 9, 15, 13, 6, 1, 12, 0, 2, 11, 7, 5, 3],
   [11, 8, 12, 0, 5, 2, 15, 13, 10, 14, 3, 6, 7, 1, 9, 4],
   [7, 9, 3, 1, 13, 12, 11, 14, 2, 6, 5, 10, 4, 0, 15, 8],
   [9, 0, 5, 7, 2, 4, 10, 15, 14, 1, 11, 12, 6, 8, 3, 13],
   [2, 12, 6, 10, 0, 11, 8, 3, 4, 13, 7, 5, 15, 14, 1, 9],
   [12, 5, 1, 15, 14, 13, 4, 10, 0, 7, 6, 3, 9, 2, 8, 11],
   [13, 11, 7, 14, 12, 1, 3, 9, 5, 0, 15, 4, 8, 6, 2, 10],
   [6, 15, 14, 9, 11, 3, 0, 8, 12, 2, 13, 7, 1, 4, 10, 5],
   [10, 2, 8, 4, 7, 6, 1, 5, 15, 11, 9, 14, 3, 12, 13, 0]]

/-- Mixing function G of BLAKE2b on the 16-word working vector. -/
def blakeG (v : List Nat) (a b c d x y : Nat) : List Nat :=
  let va := wadd (wadd (v.getD a 0) (v.getD b 0)) x
  let vd := rotr64 ((v.getD d 0) ^^^ va) 32
  let vc := wadd (v.getD c 0) vd
  let vb := rotr64 ((v.getD b 0) ^^^ vc) 24
  let va2 := wadd (wadd va vb) y
  let vd2 := rotr64 (vd ^^^ va2) 16
  let vc2 := wadd vc vd2
  let vb2 := rotr64 (vb ^^^ vc2) 63
  ((((v.set a va2).set b vb2).set c vc2).set d vd2)

/-- One round of the BLAKE2b compression function. -/
def blakeRound (m : List Nat) (v : List Nat) (r : Nat) : List Nat :=
  let s := blakeSigma.getD (r % 10) []
  let mi := fun i => m.getD (s.getD i 0) 0
  let v1 := blakeG v 0 4 8 12 (mi 0) (mi 1)
  let v2 := blakeG v1 1 5 9 13 (mi 2) (mi 3)
  let v3 := blakeG v2 2 6 10 14 (mi 4) (mi 5)
  let v4 := blakeG v3 3 7 11 15 (mi 6) (mi 7)
  let v5 := blakeG v4 0 5 10 15 (mi 8) (mi 9)
  let v6 := blakeG v5 1 6 11 12 (mi 10) (mi 11)
  let v7 := blakeG v6 2 7 8 13 (mi 12) (mi 13)
  blakeG v7 3 4 9 14 (mi 14) (mi 15)

/-- Compression function F of BLAKE2b. -/
def blakeCompress (h : List Nat) (m : List Nat) (t : Nat) (last : Bool) :
    List Nat :=
  let v0 := h ++ blakeIV
  let v1 := v0.set 12 ((v0.getD 12 0) ^^^ (t % 2 ^ 64))
  let v2 := v1.set 13 ((v1.getD 13 0) ^^^ (t / 2 ^ 64 % 2 ^ 64))
  let v3 := if last then v2.set 14 ((v2.getD 14 0) ^^^ (2 ^ 64 - 1)) else v2
  let v := (List.range 12).foldl (blakeRound m) v3
  (List.range 8).map (fun i => (h.getD i 0) ^^^ (v.getD i 0) ^^^ (v.getD (i + 8) 0))

/-- Sixteen little-endian 64-bit words from one 128-byte block. -/
def bytesToWords (bs : List Nat) : List Nat :=
  (List.range 16).map (fun i =>
    ((List.range 8).map (fun j => bs.getD (8 * i + j) 0 * 256 ^ j)).sum)

/-- Digest-state loop of BLAKE2b: process the message 128 bytes at a time,
zero-padding the final block and flagging it.  The first argument is fuel
bounding the number of blocks (structural, so that the kernel can evaluate
the function); the zero-fuel fallback coincides with the final-block case
and is only ever reached when at most 128 bytes remain. -/
def blakeBlocksGo : Nat → List Nat → List Nat → Nat → List Nat
  | 0, h, bs, processed =>
    blakeCompress h (bytesToWords bs) (processed + bs.length) true
  | fuel + 1, h, bs, processed =>
    if bs.length ≤ 128 then
      blakeCompress h (bytesToWords bs) (processed + bs.length) true
    else
      blakeBlocksGo fuel
        (blakeCompress h (bytesToWords (bs.take 128)) (processed + 128) false)
        (bs.drop 128) (processed + 128)

/-- Little-endian bytes of a list of 64-bit words. -/
def wordsToBytes : List Nat → List Nat
  | [] => []
  | w :: ws => (List.range 8).map (fun j => w / 256 ^ j % 256) ++ wordsToBytes ws

/-- BLAKE2b with a 32-byte digest of a byte string, modelled from the
external `blake2_rfc` crate consumed by the source. -/
def blake2b256 (msg : List Nat) : List Nat :=
  let h0 := blakeIV.set 0 ((blakeIV.getD 0 0) ^^^ 0x01010020)
  (wordsToBytes (blakeBlocksGo msg.length h0 msg 0)).take 32

/-- Loop of the header length encoding in `node_value`: while the remainder
exceeds 255 emit a 255 byte, then emit the remainder. -/
def headerTail (n : Nat) : List Nat :=
  if n > 255 then 255 :: headerTail (n - 255) else [n]
  decreasing_by omega

/-- Header of a node (`node_value` in the source): the node type in the two
most significant bits of the first byte, and the nibble count of the node's
own key suffix in the remaining six bits, with the overflow encoding for
counts of 63 or more. -/
def headerBytes (two_msb : Nat) (pk_len : Nat) : List Nat :=
  if pk_len ≥ 63 then (two_msb * 64 + 63) :: headerTail (pk_len - 63)
  else [two_msb * 64 + pk_len]

/-- Checked conversion mirroring `u8::try_from`. -/
def u8TryFrom (n : Nat) : Option Nat :=
  if n < 256 then some n else none

/-- Checked variant of `headerTail`, keeping the `u8::try_from(..)` of the
source as a fallible step instead of unwrapping it. -/
def headerTailChecked (n : Nat) : Option (List Nat) :=
  if n > 255 then (headerTailChecked (n - 255)).map (fun t => 255 :: t)
  else (u8TryFrom n).map (fun b => [b])
  decreasing_by omega

/-- Checked variant of `headerBytes`, keeping both `u8::try_from(..)` calls
of the source as fallible steps; `none` models a panic of the `unwrap`. -/
def headerBytesChecked (two_msb : Nat) (pk_len : Nat) : Option (List Nat) :=
  if pk_len ≥ 63 then
    (headerTailChecked (pk_len - 63)).map (fun t => (two_msb * 64 + 63) :: t)
  else (u8TryFrom pk_len).map (fun b => [two_msb * 64 + b])

/-- Hex encoding of the node's own nibble suffix in `node_value`: an even
count packs two nibbles per byte; an odd count emits the first nibble alone
in the low half of the first byte. -/
def pkeyHexEncode (pk : List Nat) : List Nat :=
  if pk.length % 2 == 0 then nibblePairsToBytes pk
  else pk.headD 0 :: nibblePairsToBytes pk.tail

/-- Absolute key of a node: the concatenation of `parent_key`,
`child_index`, and the node's own key suffix, as built at the top of
`node_value`. -/
def combinedKey (parent_key : TrieNodeKey) (child_index : Option Nat)
    (pkey : TrieNodeKey) : TrieNodeKey :=
  ⟨parent_key.nibbles ++
    (match child_index with
     | some i => [i]
     | none => []) ++ pkey.nibbles⟩

/-- Mirror of `descendant_storage_keys`: query the storage with the
truncated byte form of the key and keep only true descendants. -/
def descendant_storage_keys (cfg : Config) (key : TrieNodeKey) :
    List (List Nat) :=
  (cfg.pref_keys key.to_bytes_truncate).filter
    (fun k => key.is_ancestor_or_equal k)

/-- Mirror of `child_nodes`: for each of the sixteen child slots, the
longest common prefix of the storage keys under that slot, when any. -/
def child_nodes (cfg : Config) (key : TrieNodeKey) : List TrieNodeKey :=
  (List.range 16).filterMap (fun n =>
    commonPref (descendant_storage_keys cfg ⟨key.nibbles ++ [n]⟩))

/-- Inline-vs-hash rule of `merkle_value`: hash when the node is the root
or its encoded value is at least 32 bytes, otherwise keep the encoded
value verbatim. -/
def hashRule (is_root : Bool) (r : List Nat × Option CalculationCache) :
    List Nat × Option CalculationCache :=
  if is_root ∨ 32 ≤ r.1.length then (blake2b256 r.1, r.2) else r

/-- Encoding loop over the children inside `node_value`: each child's
Merkle value is SCALE-framed and appended, threading the cache.  The
function computing one child's Merkle value is a parameter so that the
recursion on fuel below stays structural. -/
def childrenFold
    (mv : Nat → TrieNodeKey → Option CalculationCache →
      List Nat × Option CalculationCache) :
    List (Nat × TrieNodeKey) → Option CalculationCache →
      List Nat × Option CalculationCache
  | [], cache => ([], cache)
  | (ci, cpk) :: rest, cache =>
    let r := mv ci cpk cache
    let r2 := childrenFold mv rest r.2
    (scaleEncodeBytes r.1 ++ r2.1, r2.2)

/-- Mirror of `node_value`: the canonical encoded bytes of one node, with
the cache consulted first and updated last.  `fuel` bounds the recursion
depth; the Rust code has no such bound and can diverge if the storage
callbacks violate their contract.  Each child's Merkle value is the
inline-vs-hash rule applied to the child's node value (`is_root` is false
for a child), exactly as `merkle_value` computes it. -/
def node_value (cfg : Config) :
    Nat → TrieNodeKey → Option Nat → TrieNodeKey →
      Option CalculationCache → List Nat × Option CalculationCache
  | 0, _, _, _, cache => ([], cache)
  | fuel + 1, parent_key, child_index, pkey, cache =>
    let combined_key := combinedKey parent_key child_index pkey
    match cacheLookupOpt cache combined_key with
    | some value => (value, cache)
    | none =>
      let pkey_hex := pkeyHexEncode pkey.nibbles
      let stored_value :=
        if combined_key.nibbles.length % 2 == 0 then
          cfg.get_value combined_key.to_bytes_truncate
        else none
      let children := child_nodes cfg combined_key
      let children_bitmap := children.foldl
        (fun bm child =>
          bm ||| (1 <<< (child.nibbles.getD combined_key.nibbles.length 0))) 0
      let children_pkeys := children.map (fun child =>
        (child.nibbles.getD combined_key.nibbles.length 0,
         TrieNodeKey.mk (child.nibbles.drop (combined_key.nibbles.length + 1))))
      let two_msb : Nat :=
        match stored_value.isSome, children_bitmap != 0 with
        | false, false => 0
        | true, false => 1
        | false, true => 2
        | true, true => 3
      let header := headerBytes two_msb pkey.nibbles.length
      let sub : List Nat × Option CalculationCache :=
        if children_bitmap = 0 then
          (match stored_value with
           | some sv => scaleEncodeBytes sv
           | none => [], cache)
        else
          let folded := childrenFold
            (fun ci cpk c =>
              hashRule false (node_value cfg fuel combined_key (some ci) cpk c))
            children_pkeys cache
          (children_bitmap % 256 :: children_bitmap / 256 % 256 :: folded.1 ++
            (match stored_value with
             | some sv => scaleEncodeBytes sv
             | none => []), folded.2)
      let out := header ++ pkey_hex ++ sub.1
      (out, cacheInsertOpt sub.2 combined_key out)

/-- Mirror of `merkle_value`: the node value, hashed when the node is the
root (`child_index` is `none`) or the node value is at least 32 bytes. -/
def merkle_value (cfg : Config) (fuel : Nat) (parent_key : TrieNodeKey)
    (child_index : Option Nat) (pkey : TrieNodeKey)
    (cache : Option CalculationCache) : List Nat × Option CalculationCache :=
  hashRule child_index.isNone
    (node_value cfg fuel parent_key child_index pkey cache)

/-- Mirror of `root_merkle_value`: Merkle value of the root node, which is
the node at the longest common prefix of all storage keys. -/
def root_merkle_value (cfg : Config) (fuel : Nat)
    (cache : Option CalculationCache) : List Nat × Option CalculationCache :=
  let keys := cfg.pref_keys []
  let key_from_root := (commonPref keys).getD ⟨[]⟩
  merkle_value cfg fuel ⟨[]⟩ none key_from_root cache

/-!
Concrete storage adapters used by the concrete scenarios of the
specification.
-/

/-- Byte form of the storage key `"foo"`. -/
def fooKey : List Nat := [102, 111, 111]

/-- Adapter over the one-entry storage of the pinned scenario: the key
`"foo"` maps to the value `"bar"` (the `BTreeMap` of the module
documentation example). -/
def cfgFooBar : Config where
  get_value := fun k => if k = fooKey then some [98, 97, 114] else none
  pref_keys := fun p => if p.isPrefixOf fooKey then [fooKey] else []

/-- Adapter over the empty storage. -/
def cfgEmptyS : Config where
  get_value := fun _ => none
  pref_keys := fun _ => []

/-- Adapter over the two-entry storage mapping `"a"` to `"1"` and `"b"` to
`"2"`, enumerating keys in ascending order. -/
def cfgTwo : Config where
  get_value := fun k =>
    if k = [97] then some [49] else if k = [98] then some [50] else none
  pref_keys := fun p =>
    (if p.isPrefixOf [97] then [[97]] else []) ++
      (if p.isPrefixOf [98] then [[98]] else [])

/-- The same two-entry storage as `cfgTwo`, with the keys enumerated in the
opposite order. -/
def cfgTwoRev : Config where
  get_value := cfgTwo.get_value
  pref_keys := fun p => (cfgTwo.pref_keys p).reverse

/-!
Length facts about the digest.
-/

/-- The compression function returns eight words. -/
theorem blakeCompress_length (h m : List Nat) (t : Nat) (last : Bool) :
    (blakeCompress h m t last).length = 8 := by
  simp [blakeCompress]

/-- The block loop returns eight words. -/
theorem blakeBlocksGo_length :
    ∀ fuel h bs processed, (blakeBlocksGo fuel h bs processed).length = 8
  | 0, h, bs, p => blakeCompress_length h (bytesToWords bs) (p + bs.length) true
  | fuel + 1, h, bs, p => by
    rw [blakeBlocksGo]
    split
    · exact blakeCompress_length h (bytesToWords bs) (p + bs.length) true
    · exact blakeBlocksGo_length fuel _ (bs.drop 128) (p + 128)

/-- Byte count of a word list. -/
theorem wordsToBytes_length :
    ∀ ws : List Nat, (wordsToBytes ws).length = 8 * ws.length
  | [] => rfl
  | w :: ws => by
    simp [wordsToBytes, wordsToBytes_length ws]
    omega

/-- The digest is always exactly 32 bytes. -/
theorem blake2b256_length (msg : List Nat) : (blake2b256 msg).length = 32 := by
  rw [blake2b256]
  rw [List.length_take, wordsToBytes_length, blakeBlocksGo_length]
  rfl

set_option maxRecDepth 400000 in
/-- C1: with the one-entry storage mapping `"foo"` to `"bar"`,
`root_merkle_value` returns exactly the 32 pinned bytes.  The one-entry
trie is a single leaf, so recursion depth 1 already suffices; depth 2 is
included to show the result is stable in the fuel. -/
theorem foo_bar_pinned_root :
    (root_merkle_value cfgFooBar 1 none).1 =
      [0xCC, 0x56, 0x1C, 0xD5, 0x9B, 0xCE, 0xF7, 0x91, 0x1C, 0xA9, 0xD4, 0x92,
       0xB6, 0x9F, 0xE0, 0x52, 0x74, 0xA2, 0x8F, 0x9C, 0x13, 0x2B, 0xB7, 0x08,
       0x29, 0xB2, 0xCC, 0x45, 0x29, 0x25, 0xE0, 0x5B] ∧
    (root_merkle_value cfgFooBar 2 none).1 =
      [0xCC, 0x56, 0x1C, 0xD5, 0x9B, 0xCE, 0xF7, 0x91, 0x1C, 0xA9, 0xD4, 0x92,
       0xB6, 0x9F, 0xE0, 0x52, 0x74, 0xA2, 0x8F, 0x9C, 0x13, 0x2B, 0xB7, 0x08,
       0x29, 0xB2, 0xCC, 0x45, 0x29, 0x25, 0xE0, 0x5B] := by
  constructor <;> decide

/-- C2: `merkle_value` returns the 32-byte BLAKE2b-256 digest of the node
value exactly when the node is the root (`child_index` is `none`) or the
node value is at least 32 bytes; otherwise it returns the node value
verbatim; and `root_merkle_value` always returns exactly 32 bytes. -/
theorem merkle_value_hash_rule (cfg : Config) (fuel : Nat)
    (parent_key : TrieNodeKey) (child_index : Option Nat) (pkey : TrieNodeKey)
    (cache : Option CalculationCache) :
    ((merkle_value cfg fuel parent_key child_index pkey cache).1 =
        blake2b256 (node_value cfg fuel parent_key child_index pkey cache).1 ↔
      (child_index = none ∨
        32 ≤ (node_value cfg fuel parent_key child_index pkey cache).1.length)) ∧
    (¬(child_index = none ∨
        32 ≤ (node_value cfg fuel parent_key child_index pkey cache).1.length) →
      (merkle_value cfg fuel parent_key child_index pkey cache).1 =
        (node_value cfg fuel parent_key child_index pkey cache).1) ∧
    (blake2b256 (node_value cfg fuel parent_key child_index pkey cache).1).length
      = 32 ∧
    (root_merkle_value cfg fuel cache).1.length = 32 := by
  refine ⟨?_, ?_, blake2b256_length _, ?_⟩
  · cases child_index with
    | none => simp [merkle_value, hashRule]
    | some ci =>
      by_cases hl :
        32 ≤ (node_value cfg fuel parent_key (some ci) pkey cache).1.length
      · simp [merkle_value, hashRule, hl]
      · simp only [merkle_value, hashRule, Option.isNone_some]
        rw [if_neg (by simpa using hl)]
        simp only [hl, or_false]
        constructor
        · intro h
          exfalso
          have := congrArg List.length h
          rw [blake2b256_length] at this
          omega
        · intro h
          exact absurd h (by simp)
  · intro h
    push_neg at h
    cases child_index with
    | none => exact absurd rfl h.1
    | some ci =>
      simp only [merkle_value, hashRule, Option.isNone_some]
      rw [if_neg (by simpa using h.2)]
  · simp only [root_merkle_value, merkle_value, hashRule, Option.isNone_none,
      true_or, if_true, ite_true]
    exact blake2b256_length _

/-- C2 instantiation: the hash rule evaluated on the pinned one-entry
storage, exhibiting a 32-byte root. -/
theorem merkle_value_hash_rule_witness :
    (root_merkle_value cfgFooBar 1 none).1.length = 32 :=
  (merkle_value_hash_rule cfgFooBar 1 ⟨[]⟩ none ⟨[]⟩ none).2.2.2

/-- Pairing nibbles halves the length, rounding down. -/
theorem nibblePairsToBytes_length :
    ∀ l : List Nat, (nibblePairsToBytes l).length = l.length / 2
  | [] => rfl
  | [_] => by simp [nibblePairsToBytes]
  | a :: b :: rest => by
    simp only [nibblePairsToBytes, List.length_cons,
      nibblePairsToBytes_length rest]
    omega

/-- C9: converting a byte string to nibbles and back is the identity, and
the nibble form always has even length (twice the byte count), so the
truncation drops nothing. -/
theorem from_bytes_to_bytes_roundtrip :
    ∀ b : List Nat, (∀ x ∈ b, x < 256) →
      (TrieNodeKey.from_bytes b).to_bytes_truncate = b ∧
      (TrieNodeKey.from_bytes b).nibbles.length = 2 * b.length
  | [], _ => ⟨rfl, rfl⟩
  | x :: bs, hb => by
    obtain ⟨ih1, ih2⟩ :=
      from_bytes_to_bytes_roundtrip bs
        (fun y hy => hb y (List.mem_cons_of_mem _ hy))
    have hx : x < 256 := hb x (List.mem_cons_self _ _)
    have ih1' : nibblePairsToBytes (TrieNodeKey.from_bytes bs).nibbles = bs :=
      ih1
    have ih2' : (TrieNodeKey.from_bytes bs).nibbles.length = 2 * bs.length :=
      ih2
    refine ⟨?_, ?_⟩
    · show nibblePairsToBytes
          (x / 16 % 16 :: x % 16 :: (TrieNodeKey.from_bytes bs).nibbles) =
        x :: bs
      rw [nibblePairsToBytes]
      rw [show x / 16 % 16 * 16 + x % 16 = x from by omega, ih1']
    · show (x / 16 % 16 :: x % 16 :: (TrieNodeKey.from_bytes bs).nibbles).length
          = 2 * (x :: bs).length
      simp only [List.length_cons, ih2']
      omega

/-- C9 instantiation at a concrete byte string. -/
theorem from_bytes_to_bytes_roundtrip_witness :
    (TrieNodeKey.from_bytes [0, 255, 171]).to_bytes_truncate = [0, 255, 171] ∧
    (TrieNodeKey.from_bytes [0, 255, 171]).nibbles.length = 2 * 3 :=
  from_bytes_to_bytes_roundtrip [0, 255, 171] (by decide)

/-- C5: characterization of `is_ancestor_or_equal` against a storage key
`B`.  For an even nibble count the test is exactly the byte-prefix test on
the truncated form; for an odd count it additionally requires `B` to be
strictly longer and the high nibble of `B` at byte position `(L - 1) / 2`
(that is, `B.getD ((L - 1) / 2) 0 / 16` for byte values) to equal the final
nibble.  The last conjunct records that the truncated form has `L / 2`
bytes, so for odd `L` the inspected position is exactly the first byte
after it. -/
theorem is_ancestor_or_equal_spec (k : TrieNodeKey) (B : List Nat) :
    (k.nibbles.length % 2 = 0 →
      (k.is_ancestor_or_equal B = true ↔ k.to_bytes_truncate <+: B)) ∧
    (k.nibbles.length % 2 = 1 →
      (k.is_ancestor_or_equal B = true ↔
        (k.to_bytes_truncate <+: B ∧
          k.to_bytes_truncate.length < B.length ∧
          B.getD ((k.nibbles.length - 1) / 2) 0 / 16 =
            (k.nibbles.getLast?).getD 0))) ∧
    k.to_bytes_truncate.length = k.nibbles.length / 2 := by
  have hlen : k.to_bytes_truncate.length = k.nibbles.length / 2 :=
    nibblePairsToBytes_length k.nibbles
  refine ⟨?_, ?_, hlen⟩
  · intro h
    simp [TrieNodeKey.is_ancestor_or_equal, h, List.isPrefixOf_iff_prefix]
  · intro h
    have hpos : (k.nibbles.length - 1) / 2 = k.to_bytes_truncate.length := by
      rw [hlen]; omega
    rw [hpos]
    simp only [TrieNodeKey.is_ancestor_or_equal]
    rw [if_neg (by simp [h])]
    simp only [Bool.and_eq_true, List.isPrefixOf_iff_prefix, bne_iff_ne,
      beq_iff_eq]
    constructor
    · rintro ⟨⟨hp, hne⟩, hnib⟩
      refine ⟨hp, ?_, hnib⟩
      rcases Nat.lt_or_ge k.to_bytes_truncate.length B.length with hlt | hge
      · exact hlt
      · exact absurd (hp.eq_of_length (Nat.le_antisymm hp.length_le hge)).symm
          hne
    · rintro ⟨hp, hlt, hnib⟩
      exact ⟨⟨hp, fun he => by rw [he] at hlt; omega⟩, hnib⟩

/-- C5 instantiation: the odd-length node key `[6]` is an ancestor of the
byte string `[102]` (high nibble 6) but not of `[85]`. -/
theorem is_ancestor_or_equal_spec_witness :
    TrieNodeKey.is_ancestor_or_equal ⟨[6]⟩ [102] = true ∧
    ¬([85].getD ((1 - 1) / 2) 0 / 16 = (([6] : List Nat).getLast?).getD 0) := by
  constructor
  · exact (((is_ancestor_or_equal_spec ⟨[6]⟩ [102]).2.1 rfl).mpr (by decide))
  · decide

/-- Loop invariant of `headerTail`: the output is a run of 255 bytes
followed by one final byte, the bytes sum to the input, the final byte is
at most 255, and the run is as short as possible (the final byte can be
zero only when the run is empty). -/
theorem headerTail_spec (n : Nat) :
    ∃ k r, headerTail n = List.replicate k 255 ++ [r] ∧ r ≤ 255 ∧
      255 * k + r = n ∧ (k = 0 ∨ 1 ≤ r) := by
  induction n using Nat.strong_induction_on with
  | _ n ih =>
    rw [headerTail]
    by_cases h : n > 255
    · rw [if_pos h]
      obtain ⟨k, r, h1, h2, h3, h4⟩ := ih (n - 255) (by omega)
      refine ⟨k + 1, r, ?_, h2, by omega, Or.inr (by omega)⟩
      rw [h1, List.replicate_succ, List.cons_append]
    · rw [if_neg h]
      exact ⟨0, n, rfl, by omega, by omega, Or.inl rfl⟩

/-- C6 counterexample: at suffix nibble count `L = 318` (so `L - 63 = 255`)
the reading "as many 0xFF bytes as possible followed by one final byte in
[0, 255]" demands the tail `[255, 0]`, but the code emits the tail `[255]`:
its loop only emits a 0xFF byte while the remainder strictly exceeds 255,
so it uses as few 0xFF bytes as possible. -/
theorem header_length_encoding_cex :
    headerBytes 0 318 = [63, 255] ∧
    (0 * 64 + 63) ::
        (List.replicate ((318 - 63) / 255) 255 ++ [(318 - 63) % 255]) =
      [63, 255, 0] ∧
    headerBytes 0 318 ≠
      (0 * 64 + 63) ::
        (List.replicate ((318 - 63) / 255) 255 ++ [(318 - 63) % 255]) := by
  have ht : headerTail (318 - 63) = [255] := by
    rw [show (318 : Nat) - 63 = 255 from rfl, headerTail]
    norm_num
  have h1 : headerBytes 0 318 = [63, 255] := by
    rw [headerBytes, if_pos (by omega), ht]
  refine ⟨h1, by decide, ?_⟩
  rw [h1]
  decide

/-- C6 (amended): for `L < 63` the header is the single byte
`(type <<< 6) + L`; for `L ≥ 63` it is `(type <<< 6) + 63` followed by a
run of 0xFF bytes and one final byte in `[0, 255]`, the bytes after the
leading one summing to `L - 63`, with as FEW 0xFF bytes as possible (the
final byte is 0 only when the run is empty). -/
theorem header_length_encoding (two_msb L : Nat) :
    (L < 63 → headerBytes two_msb L = [two_msb * 64 + L]) ∧
    (63 ≤ L → ∃ k r, headerBytes two_msb L =
        (two_msb * 64 + 63) :: (List.replicate k 255 ++ [r]) ∧
      r ≤ 255 ∧ 255 * k + r = L - 63 ∧ (k = 0 ∨ 1 ≤ r)) := by
  constructor
  · intro h
    rw [headerBytes, if_neg (by omega)]
  · intro h
    obtain ⟨k, r, h1, h2, h3, h4⟩ := headerTail_spec (L - 63)
    exact ⟨k, r, by rw [headerBytes, if_pos h, h1], h2, h3, h4⟩

/-- C6 instantiation: the header for type 1 and 6 suffix nibbles (the
pinned one-entry scenario) and for type 0 and 318 nibbles. -/
theorem header_length_encoding_witness :
    headerBytes 1 6 = [70] ∧
    headerBytes 0 318 = 63 :: (List.replicate 1 255 ++ []) ++ [] := by
  constructor
  · have := (header_length_encoding 1 6).1 (by omega)
    rw [this]
  · obtain ⟨k, r, h1, h2, h3, h4⟩ := (header_length_encoding 0 318).2 (by omega)
    have hk : k = 0 ∨ 1 ≤ r := h4
    have : k = 0 ∧ r = 255 := by omega
    rw [h1, this.1, this.2]
    decide

/-- `headerTailChecked` never fails and agrees with `headerTail`. -/
theorem headerTailChecked_eq (n : Nat) :
    headerTailChecked n = some (headerTail n) := by
  induction n using Nat.strong_induction_on with
  | _ n ih =>
    rw [headerTailChecked, headerTail]
    by_cases h : n > 255
    · rw [if_pos h, if_pos h, ih (n - 255) (by omega)]
      rfl
    · rw [if_neg h, if_neg h, u8TryFrom, if_pos (by omega)]
      rfl

/-- C10: the header construction never panics for any suffix nibble count:
keeping both `u8::try_from(..)` calls of the source as fallible steps, the
checked builder always returns `some` of what the total builder returns
(below 63 in the first branch, at most 255 after the subtraction loop). -/
theorem header_no_panic (two_msb pk_len : Nat) :
    headerBytesChecked two_msb pk_len = some (headerBytes two_msb pk_len) := by
  rw [headerBytesChecked, headerBytes]
  by_cases h : pk_len ≥ 63
  · rw [if_pos h, if_pos h, headerTailChecked_eq]
    rfl
  · rw [if_neg h, if_neg h, u8TryFrom, if_pos (by omega)]
    rfl

/-- C3: for the empty storage (the prefix query on the empty prefix returns
no keys and every value lookup returns `none`), `root_merkle_value` returns
the BLAKE2b-256 digest of the single byte `0x00`, the header of the
empty-root node. -/
theorem empty_storage_root (cfg : Config) (fuel : Nat)
    (hpk : cfg.pref_keys [] = [])
    (hgv : ∀ k, cfg.get_value k = none) :
    (root_merkle_value cfg (fuel + 1) none).1 = blake2b256 [0] := by
  have hone : ∀ n : Nat,
      commonPref (descendant_storage_keys cfg ⟨([] : List Nat) ++ [n]⟩) =
        none := by
    intro n
    rw [descendant_storage_keys,
      show TrieNodeKey.to_bytes_truncate ⟨([] : List Nat) ++ [n]⟩ = [] from rfl,
      hpk]
    rfl
  have hchild : child_nodes cfg ⟨[]⟩ = [] := by
    rw [child_nodes, List.filterMap_eq_nil_iff]
    intro n _
    exact hone n
  have hnode : node_value cfg (fuel + 1) ⟨[]⟩ none ⟨[]⟩ none = ([0], none) := by
    simp [node_value, combinedKey, cacheLookupOpt, hchild, hgv, childrenFold,
      TrieNodeKey.to_bytes_truncate, nibblePairsToBytes, pkeyHexEncode,
      headerBytes, cacheInsertOpt]
  rw [root_merkle_value, merkle_value]
  simp only [hpk, commonPref, Option.getD_none]
  rw [hnode]
  simp [hashRule]

/-- C3 instantiation at the concrete empty-storage adapter. -/
theorem empty_storage_root_witness :
    (root_merkle_value cfgEmptyS 1 none).1 = blake2b256 [0] :=
  empty_storage_root cfgEmptyS 0 rfl (fun _ => rfl)

/-- The positional cut is a prefix of its first argument. -/
theorem diffCut_prefix_left : ∀ a b : List Nat, diffCut a b <+: a
  | [], [] => List.nil_prefix
  | [], _ :: _ => List.nil_prefix
  | _ :: _, [] => List.nil_prefix
  | a :: as, b :: bs => by
    rw [diffCut]
    split
    · obtain ⟨t, ht⟩ := diffCut_prefix_left as bs
      exact ⟨t, by rw [List.cons_append, ht]⟩
    · exact List.nil_prefix

/-- The positional cut is a prefix of its second argument. -/
theorem diffCut_prefix_right : ∀ a b : List Nat, diffCut a b <+: b
  | [], [] => List.nil_prefix
  | [], _ :: _ => List.nil_prefix
  | _ :: _, [] => List.nil_prefix
  | a :: as, b :: bs => by
    rw [diffCut]
    split
    · next h =>
      obtain ⟨t, ht⟩ := diffCut_prefix_right as bs
      exact ⟨t, by rw [List.cons_append, ht, h]⟩
    · exact List.nil_prefix

/-- The positional cut is the longest common prefix of its two arguments. -/
theorem diffCut_max : ∀ a b c : List Nat, c <+: a → c <+: b → c <+: diffCut a b
  | _, _, [], _, _ => List.nil_prefix
  | [], _, x :: cs, h1, _ => by simp [List.prefix_nil] at h1
  | _ :: _, [], x :: cs, _, h2 => by simp [List.prefix_nil] at h2
  | a :: as, b :: bs, x :: cs, h1, h2 => by
    obtain ⟨t1, ht1⟩ := h1
    obtain ⟨t2, ht2⟩ := h2
    rw [List.cons_append] at ht1 ht2
    injection ht1 with hx1 hr1
    injection ht2 with hx2 hr2
    rw [diffCut, if_pos (hx1 ▸ hx2 : a = b)]
    obtain ⟨t, ht⟩ := diffCut_max as bs cs ⟨t1, hr1⟩ ⟨t2, hr2⟩
    exact ⟨t, by rw [List.cons_append, ht, hx1]⟩

/-- Truncating the first argument to the second's length does not change
the positional cut. -/
theorem diffCut_take : ∀ a b : List Nat, diffCut (a.take b.length) b = diffCut a b
  | [], _ => by rw [List.take_nil]
  | _ :: _, [] => rfl
  | a :: as, b :: bs => by
    simp only [List.length_cons, List.take_succ_cons, diffCut,
      diffCut_take as bs]

/-- One loop step of `common_prefix` computes exactly the positional cut of
the running prefix and the new element's nibble form. -/
theorem commonPrefStep_eq (lp : TrieNodeKey) (e : List Nat) :
    commonPrefStep lp e =
      ⟨diffCut lp.nibbles (TrieNodeKey.from_bytes e).nibbles⟩ := by
  simp only [commonPrefStep]
  split
  · rw [diffCut_take]
  · rfl

/-- Characterization of the `common_prefix` loop: the outcome is the
longest common prefix of the running prefix and the nibble forms of the
remaining elements. -/
theorem commonPrefGo_spec :
    ∀ (rest : List (List Nat)) (lp : TrieNodeKey),
      (commonPrefGo lp rest).nibbles <+: lp.nibbles ∧
      (∀ x ∈ rest,
        (commonPrefGo lp rest).nibbles <+: (TrieNodeKey.from_bytes x).nibbles) ∧
      (∀ c : List Nat, c <+: lp.nibbles →
        (∀ x ∈ rest, c <+: (TrieNodeKey.from_bytes x).nibbles) →
        c <+: (commonPrefGo lp rest).nibbles)
  | [], lp => ⟨List.prefix_refl _, by simp, fun c h _ => h⟩
  | e :: rest, lp => by
    rw [commonPrefGo]
    simp only [commonPrefStep_eq]
    by_cases hemp :
        (diffCut lp.nibbles (TrieNodeKey.from_bytes e).nibbles).isEmpty = true
    · rw [if_pos hemp]
      rw [List.isEmpty_iff] at hemp
      refine ⟨?_, ?_, ?_⟩
      · simp [hemp, List.nil_prefix]
      · intro x _
        simp [hemp, List.nil_prefix]
      · intro c hc hall
        have := diffCut_max lp.nibbles (TrieNodeKey.from_bytes e).nibbles c hc
          (hall e (List.mem_cons_self _ _))
        simpa [hemp] using this
    · rw [if_neg hemp]
      obtain ⟨p1, p2, p3⟩ := commonPrefGo_spec rest
        ⟨diffCut lp.nibbles (TrieNodeKey.from_bytes e).nibbles⟩
      refine ⟨?_, ?_, ?_⟩
      · exact p1.trans (diffCut_prefix_left _ _)
      · intro x hx
        rcases List.mem_cons.mp hx with rfl | hx
        · exact p1.trans (diffCut_prefix_right _ _)
        · exact p2 x hx
      · intro c hc hall
        exact p3 c
          (diffCut_max _ _ c hc (hall e (List.mem_cons_self _ _)))
          (fun x hx => hall x (List.mem_cons_of_mem _ hx))

/-- C7: `common_prefix` returns `none` exactly for an empty input list;
otherwise it returns the longest nibble-wise common prefix of all inputs
(every common prefix is a prefix of it), and the result is empty exactly
when no single nibble starts every input (the inputs diverge at nibble 0). -/
theorem common_pref_spec (l : List (List Nat)) :
    (commonPref l = none ↔ l = []) ∧
    (∀ r, commonPref l = some r →
      (∀ x ∈ l, r.nibbles <+: (TrieNodeKey.from_bytes x).nibbles) ∧
      (∀ c : List Nat,
        (∀ x ∈ l, c <+: (TrieNodeKey.from_bytes x).nibbles) →
        c <+: r.nibbles) ∧
      (r.nibbles = [] ↔
        ¬ ∃ n : Nat, ∀ x ∈ l, [n] <+: (TrieNodeKey.from_bytes x).nibbles)) := by
  cases l with
  | nil =>
    refine ⟨by simp [commonPref], ?_⟩
    intro r hr
    simp [commonPref] at hr
  | cons first rest =>
    refine ⟨by simp [commonPref], ?_⟩
    intro r hr
    rw [commonPref] at hr
    injection hr with hr
    obtain ⟨p1, p2, p3⟩ := commonPrefGo_spec rest (TrieNodeKey.from_bytes first)
    subst hr
    refine ⟨?_, ?_, ?_⟩
    · intro x hx
      rcases List.mem_cons.mp hx with rfl | hx
      · exact p1
      · exact p2 x hx
    · intro c hall
      exact p3 c (hall first (List.mem_cons_self _ _))
        (fun x hx => hall x (List.mem_cons_of_mem _ hx))
    · constructor
      · intro hnil hex
        obtain ⟨n, hn⟩ := hex
        have := p3 [n] (hn first (List.mem_cons_self _ _))
          (fun x hx => hn x (List.mem_cons_of_mem _ hx))
        rw [hnil] at this
        exact absurd (List.prefix_nil.mp this) (by simp)
      · intro hne
        by_contra hnonnil
        apply hne
        match hm : (commonPrefGo (TrieNodeKey.from_bytes first) rest).nibbles with
        | [] => exact absurd hm hnonnil
        | m :: t =>
          refine ⟨m, fun x hx => ?_⟩
          have hmt : [m] <+:
              (commonPrefGo (TrieNodeKey.from_bytes first) rest).nibbles := by
            rw [hm]; exact ⟨t, rfl⟩
          rcases List.mem_cons.mp hx with rfl | hx
          · exact hmt.trans p1
          · exact hmt.trans (p2 x hx)

/-- C7 instantiation: the byte strings `[18]` and `[19]` share exactly the
single leading nibble 1. -/
theorem common_pref_spec_witness :
    ([1] : List Nat) <+: (TrieNodeKey.from_bytes [18]).nibbles ∧
    ([1] : List Nat) <+: (TrieNodeKey.from_bytes [19]).nibbles := by
  have h := (common_pref_spec [[18], [19]]).2 ⟨[1]⟩ (by decide)
  exact ⟨h.1 [18] (by simp), h.1 [19] (by simp)⟩

/-- Keys with equal nibble forms are equal. -/
theorem TrieNodeKey.eq_of_nibbles {a b : TrieNodeKey}
    (h : a.nibbles = b.nibbles) : a = b := by
  cases a
  cases b
  simpa using h

/-- `common_prefix` depends only on the set of input keys: two lists with
the same members (in any order, with any duplication) share their longest
common prefix. -/
theorem commonPref_mem_congr (l1 l2 : List (List Nat))
    (h : ∀ x, x ∈ l1 ↔ x ∈ l2) : commonPref l1 = commonPref l2 := by
  cases h1 : commonPref l1 with
  | none =>
    have : l1 = [] := ((common_pref_spec l1).1).mp h1
    subst this
    cases h2 : commonPref l2 with
    | none => rfl
    | some r2 =>
      have : l2 = [] := by
        cases l2 with
        | nil => rfl
        | cons b bs => exact absurd ((h b).mpr (List.mem_cons_self _ _)) (by simp)
      subst this
      simp [commonPref] at h2
  | some r1 =>
    cases h2 : commonPref l2 with
    | none =>
      have : l2 = [] := ((common_pref_spec l2).1).mp h2
      subst this
      have : l1 = [] := by
        cases l1 with
        | nil => rfl
        | cons a as => exact absurd ((h a).mp (List.mem_cons_self _ _)) (by simp)
      subst this
      simp [commonPref] at h1
    | some r2 =>
      obtain ⟨c1, m1, _⟩ := (common_pref_spec l1).2 r1 h1
      obtain ⟨c2, m2, _⟩ := (common_pref_spec l2).2 r2 h2
      have h12 : r1.nibbles <+: r2.nibbles :=
        m2 _ (fun x hx => c1 x ((h x).mpr hx))
      have h21 : r2.nibbles <+: r1.nibbles :=
        m1 _ (fun x hx => c2 x ((h x).mp hx))
      rw [TrieNodeKey.eq_of_nibbles
        (h12.eq_of_length (Nat.le_antisymm h12.length_le h21.length_le))]

/-- The filtered descendants query has the same members for two adapters
whose prefix queries have the same members. -/
theorem descendant_storage_keys_mem_congr (cfg1 cfg2 : Config)
    (hpk : ∀ p x, x ∈ cfg1.pref_keys p ↔ x ∈ cfg2.pref_keys p)
    (k : TrieNodeKey) (x : List Nat) :
    x ∈ descendant_storage_keys cfg1 k ↔ x ∈ descendant_storage_keys cfg2 k := by
  simp only [descendant_storage_keys, List.mem_filter]
  rw [hpk]

/-- Shape inference is identical for two adapters whose prefix queries have
the same members: the sixteen slots are scanned in the same order and each
slot's common prefix agrees. -/
theorem child_nodes_congr (cfg1 cfg2 : Config)
    (hpk : ∀ p x, x ∈ cfg1.pref_keys p ↔ x ∈ cfg2.pref_keys p)
    (k : TrieNodeKey) : child_nodes cfg1 k = child_nodes cfg2 k := by
  rw [child_nodes, child_nodes]
  apply List.filterMap_congr
  intro n _
  exact commonPref_mem_congr _ _
    (descendant_storage_keys_mem_congr cfg1 cfg2 hpk _)

/-- Node values are identical for two adapters describing the same
key/value mapping, at every fuel, key and cache. -/
theorem node_value_congr (cfg1 cfg2 : Config)
    (hget : ∀ k, cfg1.get_value k = cfg2.get_value k)
    (hpk : ∀ p x, x ∈ cfg1.pref_keys p ↔ x ∈ cfg2.pref_keys p) :
    ∀ fuel parent_key child_index pkey cache,
      node_value cfg1 fuel parent_key child_index pkey cache =
        node_value cfg2 fuel parent_key child_index pkey cache := by
  have hgv : cfg1.get_value = cfg2.get_value := funext hget
  have hcn : child_nodes cfg1 = child_nodes cfg2 :=
    funext (child_nodes_congr cfg1 cfg2 hpk)
  intro fuel
  induction fuel with
  | zero => intro p ci pk c; rfl
  | succ fuel ih =>
    intro p ci pk c
    have hnv : node_value cfg1 fuel = node_value cfg2 fuel :=
      funext fun a => funext fun b => funext fun d => funext fun e => ih a b d e
    simp only [node_value]
    rw [hgv, hcn, hnv]

/-- C8: the root depends only on the key/value mapping.  For two adapters
whose value lookups agree everywhere and whose prefix queries return the
same sets of keys — in particular the same keys in different orders —
`root_merkle_value` returns bit-identical output (and leaves identical
caches). -/
theorem root_depends_only_on_mapping (cfg1 cfg2 : Config)
    (hget : ∀ k, cfg1.get_value k = cfg2.get_value k)
    (hpk : ∀ p x, x ∈ cfg1.pref_keys p ↔ x ∈ cfg2.pref_keys p)
    (fuel : Nat) (cache : Option CalculationCache) :
    root_merkle_value cfg1 fuel cache = root_merkle_value cfg2 fuel cache := by
  rw [root_merkle_value, root_merkle_value, merkle_value, merkle_value]
  rw [commonPref_mem_congr _ _ (hpk [])]
  rw [node_value_congr cfg1 cfg2 hget hpk]

/-- C8 instantiation: the two-entry storage enumerated in ascending and in
descending key order yields the same root. -/
theorem root_depends_only_on_mapping_witness :
    root_merkle_value cfgTwo 2 none = root_merkle_value cfgTwoRev 2 none :=
  root_depends_only_on_mapping cfgTwo cfgTwoRev (fun _ => rfl)
    (fun _ _ => (List.mem_reverse).symm) 2 none

/-- The inline-vs-hash rule never changes the cache. -/
theorem hashRule_snd (b : Bool) (r : List Nat × Option CalculationCache) :
    (hashRule b r).2 = r.2 := by
  rw [hashRule]
  split <;> rfl

/-- At the root the inline-vs-hash rule always hashes. -/
theorem hashRule_root_fst (r : List Nat × Option CalculationCache) :
    (hashRule true r).1 = blake2b256 r.1 := by
  rw [hashRule, if_pos (Or.inl rfl)]

/-- Lookup after insertion finds the inserted value. -/
theorem cacheFind_insert :
    ∀ (c : CalculationCache) (k : TrieNodeKey) (v : List Nat),
      cacheFind (cacheInsert c k v) k = some v
  | [], k, v => by simp [cacheInsert, cacheFind]
  | (k2, v2) :: rest, k, v => by
    rw [cacheInsert]
    by_cases h : k2 = k
    · rw [if_pos h, cacheFind, if_pos rfl]
    · rw [if_neg h, cacheFind, if_neg h]
      exact cacheFind_insert rest k v

/-- The child-encoding loop keeps the cache present when each child's
computation does. -/
theorem childrenFold_some
    (mv : Nat → TrieNodeKey → Option CalculationCache →
      List Nat × Option CalculationCache)
    (hmv : ∀ ci cpk c, (mv ci cpk (some c)).2.isSome = true) :
    ∀ (l : List (Nat × TrieNodeKey)) (c : CalculationCache),
      (childrenFold mv l (some c)).2.isSome = true
  | [], c => rfl
  | (ci, cpk) :: rest, c => by
    simp only [childrenFold]
    obtain ⟨c1, hc1⟩ := Option.isSome_iff_exists.mp (hmv ci cpk c)
    rw [hc1]
    exact childrenFold_some mv hmv rest c1

/-- Inserting through a present cache keeps it present. -/
theorem cacheInsertOpt_some (o : Option CalculationCache) (k : TrieNodeKey)
    (v : List Nat) (h : o.isSome = true) :
    (cacheInsertOpt o k v).isSome = true := by
  cases o with
  | none => simp at h
  | some c => rfl

/-- `node_value` keeps the cache present. -/
theorem node_value_some (cfg : Config) :
    ∀ (fuel : Nat) (p : TrieNodeKey) (ci : Option Nat) (pk : TrieNodeKey)
      (c : CalculationCache),
      (node_value cfg fuel p ci pk (some c)).2.isSome = true
  | 0, p, ci, pk, c => rfl
  | fuel + 1, p, ci, pk, c => by
    simp only [node_value]
    cases hl : cacheLookupOpt (some c) (combinedKey p ci pk) with
    | some v => rfl
    | none =>
      apply cacheInsertOpt_some
      split
      · rfl
      · exact childrenFold_some _
          (fun ci2 cpk2 c2 => by
            rw [hashRule_snd]
            exact node_value_some cfg fuel _ (some ci2) cpk2 c2) _ c

/-- Inserting into a present cache yields a cache in which the inserted
key maps to the inserted value. -/
theorem insertOpt_find (o : Option CalculationCache) (h : o.isSome = true)
    (K : TrieNodeKey) (out : List Nat) :
    ∃ c2, cacheInsertOpt o K out = some c2 ∧ cacheFind c2 K = some out := by
  cases o with
  | none => simp at h
  | some c1 => exact ⟨cacheInsert c1 K out, rfl, cacheFind_insert c1 K out⟩

/-- After a `node_value` call with at least one unit of fuel and a present
cache, the output cache contains the node's value under its absolute key. -/
theorem node_value_find (cfg : Config) (fuel : Nat) (p : TrieNodeKey)
    (ci : Option Nat) (pk : TrieNodeKey) (c : CalculationCache) :
    ∃ c2, (node_value cfg (fuel + 1) p ci pk (some c)).2 = some c2 ∧
      cacheFind c2 (combinedKey p ci pk) =
        some (node_value cfg (fuel + 1) p ci pk (some c)).1 := by
  simp only [node_value]
  cases hl : cacheLookupOpt (some c) (combinedKey p ci pk) with
  | some v => exact ⟨c, rfl, hl⟩
  | none =>
    refine insertOpt_find _ ?_ _ _
    rw [apply_ite Prod.snd]
    split
    · rfl
    · apply childrenFold_some
      intro ci2 cpk2 c2
      rw [hashRule_snd]
      exact node_value_some cfg fuel _ (some ci2) cpk2 c2

/-- A cache hit returns the cached value and leaves the cache unchanged,
skipping all recursion. -/
theorem node_value_hit (cfg : Config) (fuel : Nat) (p : TrieNodeKey)
    (ci : Option Nat) (pk : TrieNodeKey) (cache : Option CalculationCache)
    (v : List Nat) (h : cacheLookupOpt cache (combinedKey p ci pk) = some v) :
    node_value cfg (fuel + 1) p ci pk cache = (v, cache) := by
  simp only [node_value, h]

/-- C4: correctness of the cache under the invalidation contract.  Any
`invalidate_node` or `invalidate_prefix` call clears the whole cache, so a
cache invalidated after any change computes the same root as a freshly
built empty cache; and when there was no change at all — the cache is the
one produced by running the computation on the same storage — the root is
again identical to the empty-cache root. -/
theorem cache_invalidation_correct (cfg : Config) (fuel : Nat)
    (c : CalculationCache) (k p : List Nat) :
    root_merkle_value cfg fuel (some (c.invalidate_node k)) =
        root_merkle_value cfg fuel (some CalculationCache.empty) ∧
    root_merkle_value cfg fuel (some (c.invalidate_pref p)) =
        root_merkle_value cfg fuel (some CalculationCache.empty) ∧
    ∀ c1, (root_merkle_value cfg (fuel + 1) (some CalculationCache.empty)).2 =
        some c1 →
      (root_merkle_value cfg (fuel + 1) (some c1)).1 =
        (root_merkle_value cfg (fuel + 1) (some CalculationCache.empty)).1 := by
  refine ⟨rfl, rfl, ?_⟩
  intro c1 hc1
  simp only [root_merkle_value, merkle_value, Option.isNone_none] at hc1 ⊢
  rw [hashRule_snd] at hc1
  obtain ⟨c2, h2, hfind⟩ := node_value_find cfg fuel ⟨[]⟩ none
    ((commonPref (cfg.pref_keys [])).getD ⟨[]⟩) CalculationCache.empty
  rw [h2] at hc1
  injection hc1 with hc1
  subst hc1
  rw [hashRule_root_fst, hashRule_root_fst]
  rw [node_value_hit cfg fuel ⟨[]⟩ none _ (some c2) _ hfind]

set_option maxRecDepth 400000 in
/-- C4 instantiation on the pinned one-entry storage: recomputing with the
cache produced by a first computation yields the same root bytes as the
empty cache. -/
theorem cache_invalidation_correct_witness :
    (root_merkle_value cfgFooBar 1
        (some ((root_merkle_value cfgFooBar 1
          (some CalculationCache.empty)).2.getD []))).1 =
      (root_merkle_value cfgFooBar 1 (some CalculationCache.empty)).1 :=
  (cache_invalidation_correct cfgFooBar 0 [] [] []).2.2
    ((root_merkle_value cfgFooBar 1 (some CalculationCache.empty)).2.getD [])
    (by decide)

/-- C10 instantiation: the checked header builder succeeds both below and
above the 63-nibble threshold. -/
theorem header_no_panic_witness :
    headerBytesChecked 1 6 = some (headerBytes 1 6) ∧
    headerBytesChecked 2 318 = some (headerBytes 2 318) :=
  ⟨header_no_panic 1 6, header_no_panic 2 318⟩
